import Mathlib

/-
Verification of the greedy set cover kernel (crates/setcover-core/src/lib.rs).

The Rust functions operate on a `HashMap<K, Vec<T>>`.  A hash map is modelled
as an association list `List (K × List T)` whose entries have pairwise
distinct keys; the (unspecified) iteration order of the map is modelled as
the order of the list.  `HashSet` values are modelled as `Finset`; bit
vectors of length n are modelled as `Finset Nat` of the indices of the set
bits.  A panic is modelled as `none` / `Except.error`.
-/

set_option autoImplicit false
set_option linter.unusedSectionVars false

namespace SetCover

variable {K : Type*} {T : Type*} [DecidableEq K] [DecidableEq T]

/-- All elements of all input sets in iteration order: models
`sets.values().flatten()`. -/
def allElems (sets : List (K × List T)) : List T :=
  (sets.map Prod.snd).flatten

/-- The universe of elements: models the initialisation
`sets.values().flatten().cloned().collect::<HashSet<T>>()` of
`uncovered_elements` in `greedy_set_cover_0`. -/
def universeOf (sets : List (K × List T)) : Finset T :=
  (allElems sets).toFinset

/-- The keys of the input map in iteration order. -/
def keysOf (sets : List (K × List T)) : List K :=
  sets.map Prod.fst

/-- The element list bound to a key (the first entry with that key; a hash
map holds at most one entry per key). -/
def elemsOf : List (K × List T) → K → List T
  | [], _ => []
  | p :: ps, k => if p.1 = k then p.2 else elemsOf ps k

/-- Elements of `es` that are still uncovered: models
`set_elements.iter().filter(|e| uncovered_elements.contains(e)).cloned()
.collect::<HashSet<T>>()` in `greedy_set_cover_0`. -/
def interOf (es : List T) (uncovered : Finset T) : Finset T :=
  (es.filter (fun e => e ∈ uncovered)).toFinset

/-- One candidate evaluation of the naive scan of `greedy_set_cover_0`:
replace the running best when this set covers strictly more uncovered
elements (`covered_by_this_set.len() > best_set_covered.len()`). -/
def step0 (uncovered : Finset T) (acc : Option K × Finset T) (p : K × List T) :
    Option K × Finset T :=
  let covered := interOf p.2 uncovered
  if covered.card > acc.2.card then (some p.1, covered) else acc

/-- The inner scan of `greedy_set_cover_0` over all sets, starting from
`best_set_key = None`, `best_set_covered = HashSet::new()`. -/
def chooseBest0 (sets : List (K × List T)) (uncovered : Finset T) :
    Option K × Finset T :=
  sets.foldl (step0 uncovered) (none, ∅)

/-- The bounded greedy loop `for _ in 0..sets.len()` of `greedy_set_cover_0`.
The state is (uncovered, cover-so-far in selection order); `none` models the
in-loop panic (no set found while `uncovered` is non-empty).  The update of
`uncovered` models `uncovered_elements.retain(|e| !best_set_covered.contains(e))`. -/
def loop0 (sets : List (K × List T)) :
    Nat → Finset T → List K → Option (Finset T × List K)
  | 0, uncovered, cover => some (uncovered, cover)
  | n + 1, uncovered, cover =>
    if uncovered = ∅ then some (uncovered, cover)
    else
      match chooseBest0 sets uncovered with
      | (some k, best) =>
          loop0 sets n (uncovered.filter (fun e => e ∉ best)) (cover ++ [k])
      | (none, _) => none

/-- `greedy_set_cover_0`.  The value carried here is the list of chosen keys
in selection order; the Rust function returns this cover `HashSet` enumerated
in the unspecified `into_iter` order, which is modelled by `returnedCover0`
below.  `none` models the two panics. -/
def greedy_set_cover_0 (sets : List (K × List T)) : Option (List K) :=
  match loop0 sets sets.length (universeOf sets) [] with
  | some (uncovered, cover) => if uncovered = ∅ then some cover else none
  | none => none

/-- The dense element-to-integer mapping of `greedy_set_cover_1`, as the list
of distinct elements in first-seen order; the id assigned to an element is
its index in this list.  Models the `mapping.entry(..).or_insert_with` loop
with the `next_id` counter. -/
def elementIds (sets : List (K × List T)) : List T :=
  (allElems sets).foldl (fun acc e => if e ∈ acc then acc else acc ++ [e]) []

/-- The bit vector built for one set: for every element found in the mapping,
the bit at its id is set (`bv.set(id, true)`).  A bit vector is modelled as
the finite set of indices of its one bits. -/
def bitSetOf (m : List T) (es : List T) : Finset Nat :=
  ((es.filter (fun e => e ∈ m)).map (fun e => m.indexOf e)).toFinset

/-- The `bit_sets` map of `greedy_set_cover_1`, with the iteration order
modelled as the input order. -/
def bitSetsOf (sets : List (K × List T)) : List (K × Finset Nat) :=
  sets.map (fun p => (p.1, bitSetOf (elementIds sets) p.2))

/-- One candidate evaluation of the bitset scan of `greedy_set_cover_1`:
skip sets already in the cover, AND the bit set with `uncovered_elements`,
count the ones, and keep the strictly best count together with a saved copy
of the intersection. -/
def step1 (cover : List K) (uncovered : Finset Nat)
    (acc : Option K × Nat × Option (Finset Nat)) (p : K × Finset Nat) :
    Option K × Nat × Option (Finset Nat) :=
  if p.1 ∈ cover then acc
  else
    let inter := p.2 ∩ uncovered
    if inter.card > acc.2.1 then (some p.1, inter.card, some inter) else acc

/-- The inner scan of `greedy_set_cover_1`, starting from
`best_set_key = None`, `best_set_covered_count = 0`, `best_intersection = None`. -/
def chooseBest1 (bsets : List (K × Finset Nat)) (cover : List K)
    (uncovered : Finset Nat) : Option K × Nat × Option (Finset Nat) :=
  bsets.foldl (step1 cover uncovered) (none, 0, none)

/-- The bounded greedy loop `for _ in 0..sets.len()` of `greedy_set_cover_1`.
When a best set was found, `uncovered &= !best_intersection` is performed
only if `best_intersection` is `Some` (hence `bi.getD ∅`). -/
def loop1 (bsets : List (K × Finset Nat)) :
    Nat → Finset Nat → List K → Option (Finset Nat × List K)
  | 0, uncovered, cover => some (uncovered, cover)
  | n + 1, uncovered, cover =>
    if uncovered = ∅ then some (uncovered, cover)
    else
      match chooseBest1 bsets cover uncovered with
      | (some k, _, bi) => loop1 bsets n (uncovered \ bi.getD ∅) (cover ++ [k])
      | (none, _, _) => none

/-- `greedy_set_cover_1`: build the dense mapping and the bit sets, start
from the all-ones vector `bitvec![1; universe_size]`, run the bounded loop.
As for the naive selector, the value carried is the selection-ordered list of
chosen keys; the Rust function enumerates the cover `AHashSet` in unspecified
order (see `returnedCover1`). -/
def greedy_set_cover_1 (sets : List (K × List T)) : Option (List K) :=
  match loop1 (bitSetsOf sets) sets.length
      (Finset.range (elementIds sets).length) [] with
  | some (uncovered, cover) => if uncovered = ∅ then some cover else none
  | none => none

/-- The two failure modes of the dispatcher `greedy_set_cover`: the panic
`"Wrong algo choice, must be 0 or 1"` and the uncoverable-input panics of the
selectors. -/
inductive CoverError
  | wrongAlgo
  | uncoverable
deriving DecidableEq

/-- The dispatcher `greedy_set_cover(sets, algo)`: `match algo { 0 => ..._0,
1 => ..._1, _ => panic }`. -/
def greedy_set_cover (sets : List (K × List T)) (algo : Int) :
    Except CoverError (List K) :=
  if algo = 0 then
    match greedy_set_cover_0 sets with
    | some c => .ok c
    | none => .error .uncoverable
  else if algo = 1 then
    match greedy_set_cover_1 sets with
    | some c => .ok c
    | none => .error .uncoverable
  else .error .wrongAlgo

/-- The union of the elements of the sets named by a list of keys. -/
def coverageOf (sets : List (K × List T)) (ks : List K) : Finset T :=
  ks.foldr (fun k s => (elemsOf sets k).toFinset ∪ s) ∅

/-- The keys of the non-empty input sets, in iteration order. -/
def neKeys (sets : List (K × List T)) : List K :=
  (sets.filter (fun p => ¬ p.2 = [])).map Prod.fst

/-- The possible return values of `greedy_set_cover_0`: the cover `HashSet`
is enumerated by `into_iter` in an unspecified order, so any permutation of
the selection list is a possible returned vector. -/
def returnedCover0 (sets : List (K × List T)) (out : List K) : Prop :=
  ∃ sel, greedy_set_cover_0 sets = some sel ∧ out.Perm sel

/-- The possible return values of `greedy_set_cover_1` (cover enumerated in
unspecified `AHashSet` order). -/
def returnedCover1 (sets : List (K × List T)) (out : List K) : Prop :=
  ∃ sel, greedy_set_cover_1 sets = some sel ∧ out.Perm sel

/-- States (uncovered, cover) reachable at the start of a round of the greedy
loop of `greedy_set_cover_0`. -/
inductive Reach0 (sets : List (K × List T)) : Finset T → List K → Prop
  | init : Reach0 sets (universeOf sets) []
  | step (uncovered : Finset T) (cover : List K) (k : K) (best : Finset T) :
      Reach0 sets uncovered cover → uncovered ≠ ∅ →
      chooseBest0 sets uncovered = (some k, best) →
      Reach0 sets (uncovered.filter (fun e => e ∉ best)) (cover ++ [k])

/-- States (uncovered, cover) reachable at the start of a round of the greedy
loop of `greedy_set_cover_1`. -/
inductive Reach1 (sets : List (K × List T)) : Finset Nat → List K → Prop
  | init : Reach1 sets (Finset.range (elementIds sets).length) []
  | step (uncovered : Finset Nat) (cover : List K) (k : K) (c : Nat)
      (bi : Option (Finset Nat)) :
      Reach1 sets uncovered cover → uncovered ≠ ∅ →
      chooseBest1 (bitSetsOf sets) cover uncovered = (some k, c, bi) →
      Reach1 sets (uncovered \ bi.getD ∅) (cover ++ [k])

/-! Basic lemmas about the data model. -/

theorem interOf_eq (es : List T) (unc : Finset T) :
    interOf es unc = es.toFinset ∩ unc := by
  ext e
  simp [interOf, List.mem_filter]

theorem filter_not_mem_eq_sdiff (unc best : Finset T) :
    unc.filter (fun e => e ∉ best) = unc \ best := by
  ext e
  simp [Finset.mem_sdiff]

@[simp] theorem allElems_nil : allElems ([] : List (K × List T)) = [] := rfl

@[simp] theorem allElems_cons (p : K × List T) (ps : List (K × List T)) :
    allElems (p :: ps) = p.2 ++ allElems ps := rfl

@[simp] theorem keysOf_nil : keysOf ([] : List (K × List T)) = [] := rfl

@[simp] theorem keysOf_cons (p : K × List T) (ps : List (K × List T)) :
    keysOf (p :: ps) = p.1 :: keysOf ps := rfl

theorem elemsOf_eq_of_mem {sets : List (K × List T)}
    (hnd : (keysOf sets).Nodup) {k : K} {es : List T}
    (hmem : (k, es) ∈ sets) : elemsOf sets k = es := by
  induction sets with
  | nil => simp at hmem
  | cons p ps ih =>
    rcases List.mem_cons.1 hmem with h | h
    · rw [← h, elemsOf]
      simp
    · rw [elemsOf]
      have hk : k ∈ keysOf ps := List.mem_map.2 ⟨(k, es), h, rfl⟩
      have hp1 : p.1 ∉ keysOf ps := (List.nodup_cons.1 hnd).1
      rw [if_neg (fun hpk => hp1 (by rw [hpk]; exact hk))]
      exact ih (List.nodup_cons.1 hnd).2 h

theorem mem_of_mem_elemsOf {sets : List (K × List T)} {k : K} {e : T}
    (h : e ∈ elemsOf sets k) : e ∈ allElems sets := by
  induction sets with
  | nil => simp [elemsOf] at h
  | cons p ps ih =>
    rw [elemsOf] at h
    by_cases hpk : p.1 = k
    · rw [if_pos hpk] at h
      simp [h]
    · rw [if_neg hpk] at h
      simp [ih h]

theorem elemsOf_mem {sets : List (K × List T)} {k : K}
    (h : k ∈ keysOf sets) : (k, elemsOf sets k) ∈ sets := by
  induction sets with
  | nil => simp at h
  | cons p ps ih =>
    by_cases hpk : p.1 = k
    · rw [elemsOf, if_pos hpk]
      exact List.mem_cons.2 (Or.inl (by rw [← hpk]))
    · rw [elemsOf, if_neg hpk]
      rcases List.mem_cons.1 h with h | h
      · exact absurd h.symm hpk
      · exact List.mem_cons.2 (Or.inr (ih h))

@[simp] theorem coverageOf_nil (sets : List (K × List T)) :
    coverageOf sets [] = ∅ := rfl

@[simp] theorem coverageOf_cons (sets : List (K × List T)) (k : K) (ks : List K) :
    coverageOf sets (k :: ks) =
      (elemsOf sets k).toFinset ∪ coverageOf sets ks := rfl

theorem coverageOf_append (sets : List (K × List T)) (ks₁ ks₂ : List K) :
    coverageOf sets (ks₁ ++ ks₂) =
      coverageOf sets ks₁ ∪ coverageOf sets ks₂ := by
  induction ks₁ with
  | nil => simp
  | cons k ks ih => simp [ih, Finset.union_assoc]

theorem mem_coverageOf {sets : List (K × List T)} {ks : List K} {e : T} :
    e ∈ coverageOf sets ks ↔ ∃ k ∈ ks, e ∈ elemsOf sets k := by
  induction ks with
  | nil => simp
  | cons k ks ih => simp [ih]

theorem coverageOf_subset (sets : List (K × List T)) (ks : List K) :
    coverageOf sets ks ⊆ universeOf sets := by
  intro e he
  obtain ⟨k, _, he⟩ := mem_coverageOf.1 he
  simpa [universeOf] using mem_of_mem_elemsOf he

theorem neKeys_nodup {sets : List (K × List T)}
    (hnd : (keysOf sets).Nodup) : (neKeys sets).Nodup :=
  hnd.sublist ((List.filter_sublist sets).map Prod.fst)

theorem neKeys_subset_keys {sets : List (K × List T)} {k : K}
    (h : k ∈ neKeys sets) : k ∈ keysOf sets :=
  ((List.filter_sublist sets).map Prod.fst).mem h

theorem neKeys_length_le (sets : List (K × List T)) :
    (neKeys sets).length ≤ sets.length := by
  rw [neKeys, List.length_map]
  exact List.length_filter_le _ _

theorem mem_neKeys {sets : List (K × List T)} {p : K × List T}
    (hp : p ∈ sets) (hne : p.2 ≠ []) : p.1 ∈ neKeys sets := by
  refine List.mem_map.2 ⟨p, ?_, rfl⟩
  rw [List.mem_filter]
  exact ⟨hp, by simpa using hne⟩

/-! Specification of the inner scan of the naive selector: the fold keeps the
first candidate whose intersection count strictly exceeds every earlier one. -/

theorem foldl_step0_spec (unc : Finset T) (l : List (K × List T)) :
    ∀ acc : Option K × Finset T,
      (l.foldl (step0 unc) acc = acc ∧
        ∀ q ∈ l, (interOf q.2 unc).card ≤ acc.2.card) ∨
      (∃ l₁ p l₂, l = l₁ ++ p :: l₂ ∧
        l.foldl (step0 unc) acc = (some p.1, interOf p.2 unc) ∧
        acc.2.card < (interOf p.2 unc).card ∧
        (∀ q ∈ l₁, (interOf q.2 unc).card < (interOf p.2 unc).card) ∧
        (∀ q ∈ l₂, (interOf q.2 unc).card ≤ (interOf p.2 unc).card)) := by
  induction l with
  | nil =>
    intro acc
    left
    exact ⟨rfl, by simp⟩
  | cons p tl ih =>
    intro acc
    by_cases h : (interOf p.2 unc).card > acc.2.card
    · have hstep : step0 unc acc p = (some p.1, interOf p.2 unc) := by
        simp [step0, h]
      rcases ih (some p.1, interOf p.2 unc) with ⟨heq, hle⟩ |
        ⟨l₁, q, l₂, hsplit, heq, hlt, hl₁, hl₂⟩
      · right
        refine ⟨[], p, tl, by simp, ?_, h, by simp, ?_⟩
        · rw [List.foldl_cons, hstep, heq]
        · intro q hq
          simpa using hle q hq
      · right
        refine ⟨p :: l₁, q, l₂, by simp [hsplit], ?_, ?_, ?_, hl₂⟩
        · rw [List.foldl_cons, hstep, heq]
        · exact lt_trans h hlt
        · intro r hr
          rcases List.mem_cons.1 hr with rfl | hr
          · exact hlt
          · exact hl₁ r hr
    · have hstep : step0 unc acc p = acc := by
        simp [step0, h]
      rcases ih acc with ⟨heq, hle⟩ | ⟨l₁, q, l₂, hsplit, heq, hlt, hl₁, hl₂⟩
      · left
        refine ⟨by rw [List.foldl_cons, hstep, heq], ?_⟩
        intro q hq
        rcases List.mem_cons.1 hq with rfl | hq
        · exact Nat.le_of_not_lt h
        · exact hle q hq
      · right
        refine ⟨p :: l₁, q, l₂, by simp [hsplit], ?_, hlt, ?_, hl₂⟩
        · rw [List.foldl_cons, hstep, heq]
        · intro r hr
          rcases List.mem_cons.1 hr with rfl | hr
          · exact lt_of_le_of_lt (Nat.le_of_not_lt h) hlt
          · exact hl₁ r hr

theorem chooseBest0_none {sets : List (K × List T)} {unc b : Finset T}
    (h : chooseBest0 sets unc = (none, b)) :
    b = ∅ ∧ ∀ q ∈ sets, (interOf q.2 unc).card = 0 := by
  rcases foldl_step0_spec unc sets (none, ∅) with ⟨heq, hle⟩ |
    ⟨l₁, p, l₂, _, heq, _, _, _⟩
  · rw [chooseBest0, heq] at h
    have hb : b = ∅ := by
      have := congrArg Prod.snd h
      simpa using this.symm
    refine ⟨hb, fun q hq => ?_⟩
    have := hle q hq
    simpa using this
  · rw [chooseBest0, heq] at h
    simp at h

theorem chooseBest0_some {sets : List (K × List T)} {unc : Finset T}
    {k : K} {b : Finset T} (h : chooseBest0 sets unc = (some k, b)) :
    ∃ l₁ es l₂, sets = l₁ ++ (k, es) :: l₂ ∧ b = interOf es unc ∧
      0 < b.card ∧
      (∀ q ∈ l₁, (interOf q.2 unc).card < b.card) ∧
      (∀ q ∈ l₂, (interOf q.2 unc).card ≤ b.card) := by
  rcases foldl_step0_spec unc sets (none, ∅) with ⟨heq, _⟩ |
    ⟨l₁, p, l₂, hsplit, heq, hlt, hl₁, hl₂⟩
  · rw [chooseBest0, heq] at h
    simp at h
  · rw [chooseBest0, heq] at h
    obtain ⟨p1, p2⟩ := p
    obtain ⟨hk, hb⟩ := Prod.mk.injEq .. ▸ h
    obtain rfl : p1 = k := by simpa using hk
    refine ⟨l₁, p2, l₂, hsplit, hb.symm, ?_, ?_, ?_⟩
    · rw [← hb]
      simpa using hlt
    · intro q hq
      rw [← hb]
      exact hl₁ q hq
    · intro q hq
      rw [← hb]
      exact hl₂ q hq

theorem chooseBest0_le {sets : List (K × List T)} {unc : Finset T}
    {k : K} {b : Finset T} (h : chooseBest0 sets unc = (some k, b)) :
    ∀ q ∈ sets, (interOf q.2 unc).card ≤ b.card := by
  obtain ⟨l₁, es, l₂, hsplit, hb, _, hl₁, hl₂⟩ := chooseBest0_some h
  intro q hq
  rw [hsplit] at hq
  rcases List.mem_append.1 hq with hq | hq
  · exact le_of_lt (hl₁ q hq)
  · rcases List.mem_cons.1 hq with rfl | hq
    · rw [hb]
    · exact hl₂ q hq

theorem chooseBest0_isSome {sets : List (K × List T)} {unc : Finset T}
    (hsub : unc ⊆ universeOf sets) (hne : unc ≠ ∅) :
    ∃ k b, chooseBest0 sets unc = (some k, b) := by
  obtain ⟨u, hu⟩ := Finset.nonempty_iff_ne_empty.2 hne
  have hu' : u ∈ universeOf sets := hsub hu
  rw [universeOf, List.mem_toFinset, allElems, List.mem_flatten] at hu'
  obtain ⟨l, hl, hul⟩ := hu'
  obtain ⟨p, hp, rfl⟩ := List.mem_map.1 hl
  rcases hcb : chooseBest0 sets unc with ⟨_ | k, b⟩
  · obtain ⟨_, hall⟩ := chooseBest0_none hcb
    have hzero := hall p hp
    have hmem : u ∈ interOf p.2 unc := by
      rw [interOf_eq]
      exact Finset.mem_inter.2 ⟨List.mem_toFinset.2 hul, hu⟩
    have hpos : 0 < (interOf p.2 unc).card := Finset.card_pos.2 ⟨u, hmem⟩
    omega
  · exact ⟨k, b, rfl⟩

/-! The round invariant of the naive loop and totality. -/

theorem universe_subset_coverage {sets : List (K × List T)}
    (hnd : (keysOf sets).Nodup) {cov : List K}
    (hcov : ∀ p ∈ sets, p.2 ≠ [] → p.1 ∈ cov) :
    universeOf sets ⊆ coverageOf sets cov := by
  intro e he
  rw [universeOf, List.mem_toFinset, allElems, List.mem_flatten] at he
  obtain ⟨l, hl, hel⟩ := he
  obtain ⟨p, hp, rfl⟩ := List.mem_map.1 hl
  have hne : p.2 ≠ [] := List.ne_nil_of_mem hel
  have helems : elemsOf sets p.1 = p.2 := elemsOf_eq_of_mem hnd hp
  exact mem_coverageOf.2 ⟨p.1, hcov p hp hne, helems ▸ hel⟩

theorem inv_step {sets : List (K × List T)} (hnd : (keysOf sets).Nodup)
    {unc : Finset T} {cov : List K} {k : K} {b : Finset T}
    (hInv : unc = universeOf sets \ coverageOf sets cov)
    (hcb : chooseBest0 sets unc = (some k, b)) :
    unc.filter (fun e => e ∉ b) =
      universeOf sets \ coverageOf sets (cov ++ [k]) ∧
    k ∉ cov ∧ k ∈ neKeys sets := by
  obtain ⟨l₁, es, l₂, hsplit, hb, hpos, _, _⟩ := chooseBest0_some hcb
  have hmem : (k, es) ∈ sets := by
    rw [hsplit]
    simp
  have helems : elemsOf sets k = es := elemsOf_eq_of_mem hnd hmem
  have hbe : b = es.toFinset ∩ unc := by rw [hb, interOf_eq]
  have hknc : k ∉ cov := by
    intro hkc
    have hsubc : es.toFinset ⊆ coverageOf sets cov := fun e he =>
      mem_coverageOf.2 ⟨k, hkc, helems ▸ List.mem_toFinset.1 he⟩
    have hbempty : b = ∅ := by
      rw [hbe, hInv]
      ext e
      simp only [Finset.mem_inter, Finset.mem_sdiff, Finset.not_mem_empty,
        iff_false, not_and, not_not]
      intro h1 _
      exact hsubc h1
    rw [hbempty] at hpos
    simp at hpos
  refine ⟨?_, hknc, ?_⟩
  · rw [filter_not_mem_eq_sdiff, coverageOf_append, hInv, hbe, hInv]
    ext e
    simp only [Finset.mem_sdiff, Finset.mem_inter, Finset.mem_union,
      coverageOf_cons, coverageOf_nil, Finset.union_empty, helems,
      List.mem_toFinset]
    tauto
  · have hesne : es ≠ [] := by
      intro hnil
      rw [hnil] at hb
      rw [hb] at hpos
      simp [interOf] at hpos
    exact mem_neKeys hmem hesne

@[simp] theorem loop0_zero (sets : List (K × List T)) (unc : Finset T)
    (cov : List K) : loop0 sets 0 unc cov = some (unc, cov) := rfl

theorem loop0_succ (sets : List (K × List T)) (n : Nat) (unc : Finset T)
    (cov : List K) :
    loop0 sets (n + 1) unc cov =
      if unc = ∅ then some (unc, cov)
      else
        match chooseBest0 sets unc with
        | (some k, best) =>
            loop0 sets n (unc.filter (fun e => e ∉ best)) (cov ++ [k])
        | (none, _) => none := rfl

theorem loop0_inv {sets : List (K × List T)} (hnd : (keysOf sets).Nodup) :
    ∀ (n : Nat) (unc : Finset T) (cov : List K),
      unc = universeOf sets \ coverageOf sets cov →
      cov.Nodup → (∀ k ∈ cov, k ∈ neKeys sets) →
      (neKeys sets).length ≤ n + cov.length →
      ∃ cov', loop0 sets n unc cov = some (∅, cov') ∧ cov'.Nodup ∧
        (∀ k ∈ cov', k ∈ neKeys sets) ∧
        universeOf sets \ coverageOf sets cov' = ∅ := by
  intro n
  induction n with
  | zero =>
    intro unc cov hInv hcnd hcne hlen
    have hsub : ∀ k ∈ neKeys sets, k ∈ cov := by
      intro k hk
      have hcovsub : cov.toFinset ⊆ (neKeys sets).toFinset := fun x hx =>
        List.mem_toFinset.2 (hcne x (List.mem_toFinset.1 hx))
      have hcards : (neKeys sets).toFinset.card ≤ cov.toFinset.card := by
        rw [List.toFinset_card_of_nodup hcnd,
          List.toFinset_card_of_nodup (neKeys_nodup hnd)]
        simpa using hlen
      have heq := Finset.eq_of_subset_of_card_le hcovsub hcards
      rw [← List.mem_toFinset, ← heq, List.mem_toFinset] at hk
      exact hk
    have huncov : unc = ∅ := by
      rw [hInv, Finset.sdiff_eq_empty_iff_subset]
      exact universe_subset_coverage hnd
        (fun p hp hne => hsub p.1 (mem_neKeys hp hne))
    exact ⟨cov, by rw [loop0_zero, huncov], hcnd, hcne, by rw [← hInv, huncov]⟩
  | succ n ih =>
    intro unc cov hInv hcnd hcne hlen
    by_cases hemp : unc = ∅
    · exact ⟨cov, by rw [loop0_succ, if_pos hemp, hemp], hcnd, hcne,
        by rw [← hInv, hemp]⟩
    · have hsub : unc ⊆ universeOf sets := by
        rw [hInv]
        exact Finset.sdiff_subset
      obtain ⟨k, b, hcb⟩ := chooseBest0_isSome hsub hemp
      obtain ⟨hInv', hknc, hkne⟩ := inv_step hnd hInv hcb
      obtain ⟨cov', h1, h2, h3, h4⟩ := ih _ (cov ++ [k]) hInv'
        (by simp [List.nodup_append, hcnd, hknc])
        (by
          intro k' hk'
          rcases List.mem_append.1 hk' with hk' | hk'
          · exact hcne k' hk'
          · rw [List.mem_singleton.1 hk']
            exact hkne)
        (by
          rw [List.length_append, List.length_singleton]
          omega)
      refine ⟨cov', ?_, h2, h3, h4⟩
      rw [loop0_succ, if_neg hemp, hcb]
      exact h1

theorem greedy0_spec {sets : List (K × List T)}
    (hnd : (keysOf sets).Nodup) :
    ∃ cov, greedy_set_cover_0 sets = some cov ∧ cov.Nodup ∧
      (∀ k ∈ cov, k ∈ neKeys sets) ∧
      coverageOf sets cov = universeOf sets := by
  obtain ⟨cov, h1, h2, h3, h4⟩ := loop0_inv hnd sets.length (universeOf sets) []
    (by simp) List.nodup_nil (by simp)
    (by simpa using neKeys_length_le sets)
  refine ⟨cov, ?_, h2, h3, ?_⟩
  · rw [greedy_set_cover_0, h1]
    simp
  · exact Finset.Subset.antisymm (coverageOf_subset sets cov)
      (Finset.sdiff_eq_empty_iff_subset.1 h4)

theorem neKeys_elemsOf_ne_nil {sets : List (K × List T)}
    (hnd : (keysOf sets).Nodup) {k : K} (h : k ∈ neKeys sets) :
    elemsOf sets k ≠ [] := by
  obtain ⟨p, hp, rfl⟩ := List.mem_map.1 h
  obtain ⟨p1, p2⟩ := p
  rw [List.mem_filter] at hp
  rw [elemsOf_eq_of_mem hnd hp.1]
  simpa using hp.2

/-! The loop ignores the bound once `uncovered` is empty, and a run that has
reached full coverage is unchanged by a larger round budget. -/

theorem loop0_empty (sets : List (K × List T)) (n : Nat) (cov : List K) :
    loop0 sets n ∅ cov = some (∅, cov) := by
  cases n with
  | zero => rfl
  | succ n => rw [loop0_succ, if_pos rfl]

theorem loop0_mono {sets : List (K × List T)} :
    ∀ {n : Nat} {unc : Finset T} {cov cov' : List K},
      loop0 sets n unc cov = some (∅, cov') →
      ∀ {m : Nat}, n ≤ m → loop0 sets m unc cov = some (∅, cov') := by
  intro n
  induction n with
  | zero =>
    intro unc cov cov' h m _
    rw [loop0_zero] at h
    obtain ⟨rfl, rfl⟩ : unc = ∅ ∧ cov = cov' := by simpa using h
    exact loop0_empty sets m cov
  | succ n ih =>
    intro unc cov cov' h m hm
    rw [loop0_succ] at h
    by_cases hemp : unc = ∅
    · rw [if_pos hemp] at h
      obtain ⟨_, rfl⟩ : unc = ∅ ∧ cov = cov' := by simpa using h
      rw [hemp]
      exact loop0_empty sets m cov
    · rw [if_neg hemp] at h
      obtain ⟨m', rfl⟩ : ∃ m', m = m' + 1 := ⟨m - 1, by omega⟩
      rcases hcb : chooseBest0 sets unc with ⟨_ | k, b⟩ <;> rw [hcb] at h
      · simp at h
      · rw [loop0_succ, if_neg hemp, hcb]
        exact ih h (by omega)

/-! Removing the empty sets from the input changes nothing: an empty set has
intersection count zero and can never trigger the strictly-greater update. -/

theorem step0_empty_entry (unc : Finset T) (acc : Option K × Finset T)
    {p : K × List T} (hp : p.2 = []) : step0 unc acc p = acc := by
  simp [step0, hp, interOf]

theorem foldl_step0_filter (unc : Finset T) (l : List (K × List T)) :
    ∀ acc : Option K × Finset T,
      (l.filter (fun p => ¬ p.2 = [])).foldl (step0 unc) acc =
        l.foldl (step0 unc) acc := by
  induction l with
  | nil => intro acc; rfl
  | cons p tl ih =>
    intro acc
    by_cases hp : p.2 = []
    · rw [List.filter_cons_of_neg (by simpa using hp), List.foldl_cons,
        step0_empty_entry unc acc hp]
      exact ih acc
    · rw [List.filter_cons_of_pos (by simpa using hp), List.foldl_cons,
        List.foldl_cons]
      exact ih _

theorem chooseBest0_filter (sets : List (K × List T)) (unc : Finset T) :
    chooseBest0 (sets.filter (fun p => ¬ p.2 = [])) unc =
      chooseBest0 sets unc :=
  foldl_step0_filter unc sets (none, ∅)

theorem loop0_filter (sets : List (K × List T)) :
    ∀ (n : Nat) (unc : Finset T) (cov : List K),
      loop0 (sets.filter (fun p => ¬ p.2 = [])) n unc cov =
        loop0 sets n unc cov := by
  intro n
  induction n with
  | zero => intro unc cov; rfl
  | succ n ih =>
    intro unc cov
    rw [loop0_succ, loop0_succ, chooseBest0_filter]
    by_cases hemp : unc = ∅
    · rw [if_pos hemp, if_pos hemp]
    · rw [if_neg hemp, if_neg hemp]
      rcases chooseBest0 sets unc with ⟨_ | k, b⟩
      · rfl
      · exact ih _ _

theorem allElems_filter (sets : List (K × List T)) :
    allElems (sets.filter (fun p => ¬ p.2 = [])) = allElems sets := by
  induction sets with
  | nil => rfl
  | cons p tl ih =>
    by_cases hp : p.2 = []
    · rw [List.filter_cons_of_neg (by simpa using hp), ih, allElems_cons, hp,
        List.nil_append]
    · rw [List.filter_cons_of_pos (by simpa using hp), allElems_cons,
        allElems_cons, ih]

theorem universeOf_filter (sets : List (K × List T)) :
    universeOf (sets.filter (fun p => ¬ p.2 = [])) = universeOf sets := by
  rw [universeOf, universeOf, allElems_filter]

theorem keysOf_filter_nodup {sets : List (K × List T)}
    (hnd : (keysOf sets).Nodup) :
    (keysOf (sets.filter (fun p => ¬ p.2 = []))).Nodup :=
  hnd.sublist ((List.filter_sublist sets).map Prod.fst)

theorem neKeys_filter (sets : List (K × List T)) :
    neKeys (sets.filter (fun p => ¬ p.2 = [])) = neKeys sets := by
  rw [neKeys, neKeys, List.filter_filter]
  congr 1
  apply List.filter_congr
  intro p _
  simp

theorem greedy0_filter {sets : List (K × List T)}
    (hnd : (keysOf sets).Nodup) :
    greedy_set_cover_0 (sets.filter (fun p => ¬ p.2 = [])) =
      greedy_set_cover_0 sets := by
  obtain ⟨cov, h1, _, _, _⟩ :=
    loop0_inv (keysOf_filter_nodup hnd)
      (sets.filter (fun p => ¬ p.2 = [])).length
      (universeOf (sets.filter (fun p => ¬ p.2 = []))) []
      (by simp) List.nodup_nil (by simp)
      (by
        rw [neKeys_filter]
        simp [neKeys])
  have h2 : loop0 sets (sets.filter (fun p => ¬ p.2 = [])).length
      (universeOf sets) [] = some (∅, cov) := by
    rw [← loop0_filter, ← universeOf_filter sets]
    exact h1
  have h3 : loop0 sets sets.length (universeOf sets) [] = some (∅, cov) :=
    loop0_mono h2 (List.length_filter_le _ _)
  rw [greedy_set_cover_0, greedy_set_cover_0, h1, h3]

/-! The dense element-to-id mapping of the bitset selector. -/

theorem foldl_insert_mem (l : List T) :
    ∀ (acc : List T) (e : T),
      (e ∈ l.foldl (fun acc e => if e ∈ acc then acc else acc ++ [e]) acc) ↔
        e ∈ acc ∨ e ∈ l := by
  induction l with
  | nil => intro acc e; simp
  | cons x xs ih =>
    intro acc e
    rw [List.foldl_cons]
    by_cases hx : x ∈ acc
    · rw [if_pos hx, ih]
      constructor
      · rintro (h | h)
        · exact Or.inl h
        · exact Or.inr (List.mem_cons.2 (Or.inr h))
      · rintro (h | h)
        · exact Or.inl h
        · rcases List.mem_cons.1 h with rfl | h
          · exact Or.inl hx
          · exact Or.inr h
    · rw [if_neg hx, ih]
      simp [List.mem_append, List.mem_cons, or_assoc]

theorem foldl_insert_nodup (l : List T) :
    ∀ acc : List T, acc.Nodup →
      (l.foldl (fun acc e => if e ∈ acc then acc else acc ++ [e]) acc).Nodup := by
  induction l with
  | nil => intro acc h; exact h
  | cons x xs ih =>
    intro acc h
    rw [List.foldl_cons]
    by_cases hx : x ∈ acc
    · rw [if_pos hx]
      exact ih acc h
    · rw [if_neg hx]
      refine ih _ ?_
      simp [List.nodup_append, h, hx]

theorem mem_elementIds {sets : List (K × List T)} {e : T} :
    e ∈ elementIds sets ↔ e ∈ allElems sets := by
  rw [elementIds, foldl_insert_mem]
  simp

theorem elementIds_nodup (sets : List (K × List T)) :
    (elementIds sets).Nodup :=
  foldl_insert_nodup _ [] List.nodup_nil

theorem elementIds_toFinset (sets : List (K × List T)) :
    (elementIds sets).toFinset = universeOf sets := by
  ext e
  simp [mem_elementIds, universeOf]

/-! Images under the dense id assignment, which is injective on the mapped
elements. -/

theorem image_inter_of_injOn {f : T → Nat} {s t w : Finset T}
    (hs : s ⊆ w) (ht : t ⊆ w)
    (hinj : ∀ a ∈ w, ∀ b ∈ w, f a = f b → a = b) :
    (s ∩ t).image f = s.image f ∩ t.image f := by
  ext n
  simp only [Finset.mem_image, Finset.mem_inter]
  constructor
  · rintro ⟨a, ⟨has, hat⟩, rfl⟩
    exact ⟨⟨a, has, rfl⟩, ⟨a, hat, rfl⟩⟩
  · rintro ⟨⟨a, has, rfl⟩, ⟨b, hbt, hba⟩⟩
    obtain rfl : b = a := hinj b (ht hbt) a (hs has) hba
    exact ⟨b, ⟨has, hbt⟩, rfl⟩

theorem image_sdiff_of_injOn {f : T → Nat} {s t w : Finset T}
    (hs : s ⊆ w) (ht : t ⊆ w)
    (hinj : ∀ a ∈ w, ∀ b ∈ w, f a = f b → a = b) :
    (s \ t).image f = s.image f \ t.image f := by
  ext n
  simp only [Finset.mem_image, Finset.mem_sdiff]
  constructor
  · rintro ⟨a, ⟨has, hat⟩, rfl⟩
    refine ⟨⟨a, has, rfl⟩, ?_⟩
    rintro ⟨b, hbt, hba⟩
    obtain rfl : b = a := hinj b (ht hbt) a (hs has) hba
    exact hat hbt
  · rintro ⟨⟨a, has, rfl⟩, hn⟩
    exact ⟨a, ⟨has, fun hat => hn ⟨a, hat, rfl⟩⟩, rfl⟩

theorem card_image_of_injOn_subset {f : T → Nat} {s w : Finset T}
    (hs : s ⊆ w) (hinj : ∀ a ∈ w, ∀ b ∈ w, f a = f b → a = b) :
    (s.image f).card = s.card :=
  Finset.card_image_of_injOn fun a ha b hb h => hinj a (hs ha) b (hs hb) h

theorem indexOf_injOn_toFinset (m : List T) :
    ∀ a ∈ m.toFinset, ∀ b ∈ m.toFinset,
      m.indexOf a = m.indexOf b → a = b := by
  intro a ha b hb h
  exact (List.indexOf_inj (List.mem_toFinset.1 ha) (List.mem_toFinset.1 hb)).1 h

theorem bitSetOf_eq_image {m es : List T} (h : ∀ e ∈ es, e ∈ m) :
    bitSetOf m es = es.toFinset.image (fun e => m.indexOf e) := by
  rw [bitSetOf]
  have hfe : es.filter (fun e => e ∈ m) = es :=
    List.filter_eq_self.2 (by
      intro a ha
      simpa using h a ha)
  rw [hfe]
  ext n
  simp [List.mem_map]

theorem image_indexOf_universe (sets : List (K × List T)) :
    (universeOf sets).image (fun e => (elementIds sets).indexOf e) =
      Finset.range (elementIds sets).length := by
  ext i
  simp only [Finset.mem_image, Finset.mem_range]
  constructor
  · rintro ⟨e, he, rfl⟩
    have hm : e ∈ elementIds sets :=
      mem_elementIds.2 (by simpa [universeOf] using he)
    exact List.indexOf_lt_length.2 hm
  · intro hi
    refine ⟨(elementIds sets)[i], ?_, ?_⟩
    · rw [← elementIds_toFinset]
      exact List.mem_toFinset.2 (List.getElem_mem hi)
    · have hmem : (elementIds sets)[i] ∈ elementIds sets := List.getElem_mem hi
      have hlt := List.indexOf_lt_length.2 hmem
      have hget := List.getElem_indexOf hlt
      exact ((elementIds_nodup sets).getElem_inj_iff).1 hget

/-! Step-by-step correspondence between the naive scan and the bitset scan:
the bitset scan computes the image of the naive state under the dense id
assignment. -/

/-- Correspondence between the accumulator of the naive scan and the
accumulator of the bitset scan. -/
def AccRel (f : T → Nat) (a0 : Option K × Finset T)
    (a1 : Option K × Nat × Option (Finset Nat)) : Prop :=
  a1.1 = a0.1 ∧ a1.2.1 = a0.2.card ∧
    ((a0 = (none, ∅) ∧ a1 = (none, 0, none)) ∨
      a1.2.2 = some (a0.2.image f))

theorem step_sim {m : List T} {unc : Finset T} {cov : List K}
    (hw : unc ⊆ m.toFinset) {p : K × List T} (hp : ∀ e ∈ p.2, e ∈ m)
    (hskip : p.1 ∈ cov → interOf p.2 unc = ∅)
    {a0 : Option K × Finset T} {a1 : Option K × Nat × Option (Finset Nat)}
    (hR : AccRel (fun e => m.indexOf e) a0 a1) :
    AccRel (fun e => m.indexOf e) (step0 unc a0 p)
      (step1 cov (unc.image (fun e => m.indexOf e)) a1
        (p.1, bitSetOf m p.2)) := by
  obtain ⟨hR1, hR2, hR3⟩ := hR
  have hsub : p.2.toFinset ⊆ m.toFinset := fun e he =>
    List.mem_toFinset.2 (hp e (List.mem_toFinset.1 he))
  have hinter :
      bitSetOf m p.2 ∩ unc.image (fun e => m.indexOf e) =
        (interOf p.2 unc).image (fun e => m.indexOf e) := by
    rw [bitSetOf_eq_image hp, interOf_eq,
      image_inter_of_injOn hsub hw (indexOf_injOn_toFinset m)]
  have hcard :
      ((interOf p.2 unc).image (fun e => m.indexOf e)).card =
        (interOf p.2 unc).card := by
    refine card_image_of_injOn_subset ?_ (indexOf_injOn_toFinset m)
    rw [interOf_eq]
    exact le_trans (Finset.inter_subset_left) hsub
  by_cases hc : p.1 ∈ cov
  · have hI : interOf p.2 unc = ∅ := hskip hc
    have h0 : step0 unc a0 p = a0 := by
      simp [step0, hI]
    have h1 : step1 cov (unc.image (fun e => m.indexOf e)) a1
        (p.1, bitSetOf m p.2) = a1 := by
      simp [step1, hc]
    rw [h0, h1]
    exact ⟨hR1, hR2, hR3⟩
  · by_cases hgt : (interOf p.2 unc).card > a0.2.card
    · have h0 : step0 unc a0 p = (some p.1, interOf p.2 unc) := by
        simp [step0, hgt]
      have h1 : step1 cov (unc.image (fun e => m.indexOf e)) a1
          (p.1, bitSetOf m p.2) =
          (some p.1, (interOf p.2 unc).card,
            some ((interOf p.2 unc).image (fun e => m.indexOf e))) := by
        rw [step1, if_neg hc]
        simp only [hinter, hcard, hR2]
        rw [if_pos hgt]
      rw [h0, h1]
      exact ⟨rfl, rfl, Or.inr rfl⟩
    · have h0 : step0 unc a0 p = a0 := by
        simp [step0, hgt]
      have h1 : step1 cov (unc.image (fun e => m.indexOf e)) a1
          (p.1, bitSetOf m p.2) = a1 := by
        rw [step1, if_neg hc]
        simp only [hinter, hcard, hR2]
        rw [if_neg hgt]
      rw [h0, h1]
      exact ⟨hR1, hR2, hR3⟩

theorem fold_sim {m : List T} {unc : Finset T} {cov : List K}
    (hw : unc ⊆ m.toFinset) (l : List (K × List T)) :
    ∀ (a0 : Option K × Finset T) (a1 : Option K × Nat × Option (Finset Nat)),
      (∀ p ∈ l, ∀ e ∈ p.2, e ∈ m) →
      (∀ p ∈ l, p.1 ∈ cov → interOf p.2 unc = ∅) →
      AccRel (fun e => m.indexOf e) a0 a1 →
      AccRel (fun e => m.indexOf e) (l.foldl (step0 unc) a0)
        ((l.map (fun p => (p.1, bitSetOf m p.2))).foldl
          (step1 cov (unc.image (fun e => m.indexOf e))) a1) := by
  induction l with
  | nil => intro a0 a1 _ _ h; exact h
  | cons p tl ih =>
    intro a0 a1 hmem hskip hR
    rw [List.map_cons, List.foldl_cons, List.foldl_cons]
    exact ih _ _ (fun q hq => hmem q (List.mem_cons_of_mem p hq))
      (fun q hq => hskip q (List.mem_cons_of_mem p hq))
      (step_sim hw (hmem p (List.mem_cons_self p tl))
        (hskip p (List.mem_cons_self p tl)) hR)

theorem mem_elementIds_of_entry {sets : List (K × List T)}
    {p : K × List T} (hp : p ∈ sets) {e : T} (he : e ∈ p.2) :
    e ∈ elementIds sets := by
  refine mem_elementIds.2 ?_
  rw [allElems, List.mem_flatten]
  exact ⟨p.2, List.mem_map.2 ⟨p, hp, rfl⟩, he⟩

theorem chooseBest_sim {sets : List (K × List T)} {unc : Finset T}
    {cov : List K} (hw : unc ⊆ (elementIds sets).toFinset)
    (hskip : ∀ p ∈ sets, p.1 ∈ cov → interOf p.2 unc = ∅) :
    AccRel (fun e => (elementIds sets).indexOf e)
      (chooseBest0 sets unc)
      (chooseBest1 (bitSetsOf sets) cov
        (unc.image (fun e => (elementIds sets).indexOf e))) := by
  rw [chooseBest0, chooseBest1, bitSetsOf]
  exact fold_sim hw sets (none, ∅) (none, 0, none)
    (fun p hp e he => mem_elementIds_of_entry hp he) hskip
    ⟨rfl, by simp, Or.inl ⟨rfl, rfl⟩⟩

theorem cov_inter_empty {sets : List (K × List T)}
    (hnd : (keysOf sets).Nodup) {unc : Finset T} {cov : List K}
    (hInv : unc = universeOf sets \ coverageOf sets cov) :
    ∀ p ∈ sets, p.1 ∈ cov → interOf p.2 unc = ∅ := by
  intro p hp hpc
  obtain ⟨p1, p2⟩ := p
  have helems : elemsOf sets p1 = p2 := elemsOf_eq_of_mem hnd hp
  rw [interOf_eq, hInv]
  ext e
  simp only [Finset.mem_inter, Finset.mem_sdiff, Finset.not_mem_empty,
    iff_false, not_and, not_not]
  intro h1 _
  exact mem_coverageOf.2 ⟨p1, hpc, helems ▸ List.mem_toFinset.1 h1⟩

theorem chooseBest0_best_subset {sets : List (K × List T)} {unc : Finset T}
    {k : K} {b : Finset T} (h : chooseBest0 sets unc = (some k, b)) :
    b ⊆ unc := by
  obtain ⟨_, es, _, _, hb, _, _, _⟩ := chooseBest0_some h
  rw [hb, interOf_eq]
  exact Finset.inter_subset_right

@[simp] theorem loop1_zero (bsets : List (K × Finset Nat)) (unc : Finset Nat)
    (cov : List K) : loop1 bsets 0 unc cov = some (unc, cov) := rfl

theorem loop1_succ (bsets : List (K × Finset Nat)) (n : Nat)
    (unc : Finset Nat) (cov : List K) :
    loop1 bsets (n + 1) unc cov =
      if unc = ∅ then some (unc, cov)
      else
        match chooseBest1 bsets cov unc with
        | (some k, _, bi) => loop1 bsets n (unc \ bi.getD ∅) (cov ++ [k])
        | (none, _, _) => none := rfl

theorem loop_sim {sets : List (K × List T)} (hnd : (keysOf sets).Nodup) :
    ∀ (n : Nat) (unc : Finset T) (cov : List K),
      unc = universeOf sets \ coverageOf sets cov →
      loop1 (bitSetsOf sets) n
          (unc.image (fun e => (elementIds sets).indexOf e)) cov =
        (loop0 sets n unc cov).map
          (fun s => (s.1.image (fun e => (elementIds sets).indexOf e), s.2)) := by
  intro n
  induction n with
  | zero => intro unc cov _; rfl
  | succ n ih =>
    intro unc cov hInv
    have hw : unc ⊆ (elementIds sets).toFinset := by
      rw [elementIds_toFinset, hInv]
      exact Finset.sdiff_subset
    by_cases hemp : unc = ∅
    · have hemp1 : unc.image (fun e => (elementIds sets).indexOf e) = ∅ := by
        rw [hemp]
        exact Finset.image_empty _
      rw [loop0_succ, loop1_succ, if_pos hemp, if_pos hemp1]
      rw [hemp1, hemp]
      rfl
    · have hemp1 : unc.image (fun e => (elementIds sets).indexOf e) ≠ ∅ := by
        simpa [Finset.image_eq_empty] using hemp
      have hR := chooseBest_sim hw (cov_inter_empty hnd hInv)
      rw [loop0_succ, loop1_succ, if_neg hemp, if_neg hemp1]
      rcases hcb : chooseBest0 sets unc with ⟨_ | k, b⟩
      · rw [hcb] at hR
        obtain ⟨hR1, _, _⟩ := hR
        rcases hcb1 : chooseBest1 (bitSetsOf sets) cov
            (unc.image (fun e => (elementIds sets).indexOf e)) with ⟨ok1, c1, bi1⟩
        rw [hcb1] at hR1
        obtain rfl : ok1 = none := by simpa using hR1
        rfl
      · rw [hcb] at hR
        obtain ⟨hR1, hR2, hR3⟩ := hR
        rcases hcb1 : chooseBest1 (bitSetsOf sets) cov
            (unc.image (fun e => (elementIds sets).indexOf e)) with ⟨ok1, c1, bi1⟩
        rw [hcb1] at hR1 hR3
        obtain rfl : ok1 = some k := by simpa using hR1
        rcases hR3 with ⟨hcontra, _⟩ | hbi
        · exact absurd (congrArg Prod.fst hcontra) (by simp)
        · have hbi' : bi1 = some (b.image (fun e => (elementIds sets).indexOf e)) := by
            simpa using hbi
          have hbsub : b ⊆ unc := chooseBest0_best_subset hcb
          have hsd :
              unc.image (fun e => (elementIds sets).indexOf e) \
                  b.image (fun e => (elementIds sets).indexOf e) =
                (unc \ b).image (fun e => (elementIds sets).indexOf e) :=
            (image_sdiff_of_injOn hw (fun x hx => hw (hbsub hx))
              (indexOf_injOn_toFinset _)).symm
          obtain ⟨hInv', _, _⟩ := inv_step hnd hInv hcb
          have hIH := ih (unc \ b) (cov ++ [k])
            (by rw [← filter_not_mem_eq_sdiff]; exact hInv')
          show loop1 (bitSetsOf sets) n
              (unc.image (fun e => (elementIds sets).indexOf e) \ bi1.getD ∅)
              (cov ++ [k]) = _
          rw [hbi', Option.getD_some, hsd, hIH]
          show Option.map _ (loop0 sets n (unc \ b) (cov ++ [k])) =
            Option.map _ (loop0 sets n (unc.filter (fun e => e ∉ b)) (cov ++ [k]))
          rw [filter_not_mem_eq_sdiff]

theorem greedy1_eq_greedy0 {sets : List (K × List T)}
    (hnd : (keysOf sets).Nodup) :
    greedy_set_cover_1 sets = greedy_set_cover_0 sets := by
  have h := loop_sim hnd sets.length (universeOf sets) [] (by simp)
  rw [greedy_set_cover_1, greedy_set_cover_0,
    ← image_indexOf_universe sets, h]
  rcases loop0 sets sets.length (universeOf sets) [] with _ | ⟨u, c⟩
  · rfl
  · show (if u.image (fun e => (elementIds sets).indexOf e) = ∅
        then some c else none) = if u = ∅ then some c else none
    by_cases hu : u = ∅
    · rw [if_pos hu, if_pos (by rw [hu]; exact Finset.image_empty _)]
    · rw [if_neg hu, if_neg (by simpa [Finset.image_eq_empty] using hu)]

/-! Specification of the inner scan of the bitset selector: among the
not-yet-chosen sets, the first candidate whose count strictly exceeds every
earlier candidate wins. -/

theorem foldl_step1_spec (cov : List K) (unc : Finset Nat)
    (l : List (K × Finset Nat)) :
    ∀ acc : Option K × Nat × Option (Finset Nat),
      (l.foldl (step1 cov unc) acc = acc ∧
        ∀ q ∈ l, q.1 ∉ cov → (q.2 ∩ unc).card ≤ acc.2.1) ∨
      (∃ l₁ p l₂, l = l₁ ++ p :: l₂ ∧ p.1 ∉ cov ∧
        l.foldl (step1 cov unc) acc =
          (some p.1, (p.2 ∩ unc).card, some (p.2 ∩ unc)) ∧
        acc.2.1 < (p.2 ∩ unc).card ∧
        (∀ q ∈ l₁, q.1 ∉ cov → (q.2 ∩ unc).card < (p.2 ∩ unc).card) ∧
        (∀ q ∈ l₂, q.1 ∉ cov → (q.2 ∩ unc).card ≤ (p.2 ∩ unc).card)) := by
  induction l with
  | nil =>
    intro acc
    left
    exact ⟨rfl, by simp⟩
  | cons p tl ih =>
    intro acc
    by_cases hc : p.1 ∈ cov
    · have hstep : step1 cov unc acc p = acc := by
        simp [step1, hc]
      rcases ih acc with ⟨heq, hle⟩ |
        ⟨l₁, q, l₂, hsplit, hqc, heq, hlt, hl₁, hl₂⟩
      · left
        refine ⟨by rw [List.foldl_cons, hstep, heq], ?_⟩
        intro q hq hqc
        rcases List.mem_cons.1 hq with rfl | hq
        · exact absurd hc hqc
        · exact hle q hq hqc
      · right
        refine ⟨p :: l₁, q, l₂, by simp [hsplit], hqc,
          by rw [List.foldl_cons, hstep, heq], hlt, ?_, hl₂⟩
        intro r hr hrc
        rcases List.mem_cons.1 hr with rfl | hr
        · exact absurd hc hrc
        · exact hl₁ r hr hrc
    · by_cases hgt : (p.2 ∩ unc).card > acc.2.1
      · have hstep : step1 cov unc acc p =
            (some p.1, (p.2 ∩ unc).card, some (p.2 ∩ unc)) := by
          rw [step1, if_neg hc]
          simp [hgt]
        rcases ih (some p.1, (p.2 ∩ unc).card, some (p.2 ∩ unc)) with
          ⟨heq, hle⟩ | ⟨l₁, q, l₂, hsplit, hqc, heq, hlt, hl₁, hl₂⟩
        · right
          refine ⟨[], p, tl, by simp, hc,
            by rw [List.foldl_cons, hstep, heq], hgt, by simp, ?_⟩
          intro q hq hqc
          simpa using hle q hq hqc
        · right
          refine ⟨p :: l₁, q, l₂, by simp [hsplit], hqc,
            by rw [List.foldl_cons, hstep, heq], lt_trans hgt hlt, ?_, hl₂⟩
          intro r hr hrc
          rcases List.mem_cons.1 hr with rfl | hr
          · exact hlt
          · exact hl₁ r hr hrc
      · have hstep : step1 cov unc acc p = acc := by
          rw [step1, if_neg hc]
          simp [hgt]
        rcases ih acc with ⟨heq, hle⟩ |
          ⟨l₁, q, l₂, hsplit, hqc, heq, hlt, hl₁, hl₂⟩
        · left
          refine ⟨by rw [List.foldl_cons, hstep, heq], ?_⟩
          intro q hq hqc
          rcases List.mem_cons.1 hq with rfl | hq
          · exact Nat.le_of_not_lt hgt
          · exact hle q hq hqc
        · right
          refine ⟨p :: l₁, q, l₂, by simp [hsplit], hqc,
            by rw [List.foldl_cons, hstep, heq],
            hlt, ?_, hl₂⟩
          intro r hr hrc
          rcases List.mem_cons.1 hr with rfl | hr
          · exact lt_of_le_of_lt (Nat.le_of_not_lt hgt) hlt
          · exact hl₁ r hr hrc

theorem chooseBest1_some {bsets : List (K × Finset Nat)} {cov : List K}
    {unc : Finset Nat} {k : K} {c : Nat} {bi : Option (Finset Nat)}
    (h : chooseBest1 bsets cov unc = (some k, c, bi)) :
    ∃ l₁ bs l₂, bsets = l₁ ++ (k, bs) :: l₂ ∧ k ∉ cov ∧
      c = (bs ∩ unc).card ∧ bi = some (bs ∩ unc) ∧ 0 < c ∧
      (∀ q ∈ l₁, q.1 ∉ cov → (q.2 ∩ unc).card < c) ∧
      (∀ q ∈ l₂, q.1 ∉ cov → (q.2 ∩ unc).card ≤ c) := by
  rcases foldl_step1_spec cov unc bsets (none, 0, none) with ⟨heq, _⟩ |
    ⟨l₁, p, l₂, hsplit, hpc, heq, hlt, hl₁, hl₂⟩
  · rw [chooseBest1, heq] at h
    simp at h
  · rw [chooseBest1, heq] at h
    obtain ⟨p1, p2⟩ := p
    obtain ⟨hk, hc, hbi⟩ :
        p1 = k ∧ (p2 ∩ unc).card = c ∧ some (p2 ∩ unc) = bi := by
      simpa using h
    subst hk
    subst hc
    refine ⟨l₁, p2, l₂, hsplit, hpc, rfl, hbi.symm, by simpa using hlt,
      hl₁, hl₂⟩

theorem chooseBest1_not_mem {bsets : List (K × Finset Nat)} {cov : List K}
    {unc : Finset Nat} {k : K} {c : Nat} {bi : Option (Finset Nat)}
    (h : chooseBest1 bsets cov unc = (some k, c, bi)) : k ∉ cov := by
  obtain ⟨_, _, _, _, hk, _⟩ := chooseBest1_some h
  exact hk

/-! The reachable-state invariants behind claim C10. -/

theorem reach0_inv {sets : List (K × List T)} (hnd : (keysOf sets).Nodup)
    {unc : Finset T} {cov : List K} (h : Reach0 sets unc cov) :
    unc = universeOf sets \ coverageOf sets cov := by
  induction h with
  | init => simp
  | step unc cov k best _ hne hcb ih => exact (inv_step hnd ih hcb).1

theorem reach0_cov_covered {sets : List (K × List T)}
    (hnd : (keysOf sets).Nodup) {unc : Finset T} {cov : List K}
    (h : Reach0 sets unc cov) :
    ∀ k ∈ cov, (elemsOf sets k).toFinset ∩ unc = ∅ := by
  have hInv := reach0_inv hnd h
  intro k hk
  rw [hInv]
  ext e
  simp only [Finset.mem_inter, Finset.mem_sdiff, Finset.not_mem_empty,
    iff_false, not_and, not_not]
  intro h1 _
  exact mem_coverageOf.2 ⟨k, hk, List.mem_toFinset.1 h1⟩

theorem reach0_no_reselect {sets : List (K × List T)}
    (hnd : (keysOf sets).Nodup) {unc : Finset T} {cov : List K}
    (h : Reach0 sets unc cov) {k : K} {b : Finset T}
    (hcb : chooseBest0 sets unc = (some k, b)) : k ∉ cov :=
  (inv_step hnd (reach0_inv hnd h) hcb).2.1

theorem reach1_corr {sets : List (K × List T)} (hnd : (keysOf sets).Nodup)
    {unc1 : Finset Nat} {cov : List K} (h : Reach1 sets unc1 cov) :
    ∃ unc0, Reach0 sets unc0 cov ∧
      unc1 = unc0.image (fun e => (elementIds sets).indexOf e) := by
  induction h with
  | init =>
    exact ⟨universeOf sets, Reach0.init, (image_indexOf_universe sets).symm⟩
  | step unc1 cov k c bi hr hne hcb ih =>
    obtain ⟨unc0, hr0, rfl⟩ := ih
    have hInv := reach0_inv hnd hr0
    have hw : unc0 ⊆ (elementIds sets).toFinset := by
      rw [elementIds_toFinset, hInv]
      exact Finset.sdiff_subset
    have hne0 : unc0 ≠ ∅ := by
      intro h0
      rw [h0] at hne
      simp at hne
    have hR := chooseBest_sim hw (cov_inter_empty hnd hInv)
    rcases hcb0 : chooseBest0 sets unc0 with ⟨_ | k0, b0⟩
    · rw [hcb0, hcb] at hR
      obtain ⟨hR1, _, _⟩ := hR
      simp at hR1
    · rw [hcb0, hcb] at hR
      obtain ⟨hR1, _, hR3⟩ := hR
      obtain rfl : k0 = k := by simpa using hR1.symm
      rcases hR3 with ⟨hcontra, _⟩ | hbi
      · exact absurd (congrArg Prod.fst hcontra) (by simp)
      · have hbi' : bi =
            some (b0.image (fun e => (elementIds sets).indexOf e)) := by
          simpa using hbi
        have hbsub : b0 ⊆ unc0 := chooseBest0_best_subset hcb0
        refine ⟨unc0 \ b0, ?_, ?_⟩
        · have hstep := Reach0.step unc0 cov _ b0 hr0 hne0 hcb0
          rwa [filter_not_mem_eq_sdiff] at hstep
        · rw [hbi', Option.getD_some]
          exact (image_sdiff_of_injOn hw (fun x hx => hw (hbsub hx))
            (indexOf_injOn_toFinset _)).symm

theorem reach1_cov_covered {sets : List (K × List T)}
    (hnd : (keysOf sets).Nodup) {unc1 : Finset Nat} {cov : List K}
    (h : Reach1 sets unc1 cov) :
    ∀ k ∈ cov, bitSetOf (elementIds sets) (elemsOf sets k) ∩ unc1 = ∅ := by
  obtain ⟨unc0, hr0, rfl⟩ := reach1_corr hnd h
  intro k hk
  have h0 := reach0_cov_covered hnd hr0 k hk
  have hInv := reach0_inv hnd hr0
  have hw : unc0 ⊆ (elementIds sets).toFinset := by
    rw [elementIds_toFinset, hInv]
    exact Finset.sdiff_subset
  have hmemb : ∀ e ∈ elemsOf sets k, e ∈ elementIds sets := fun e he =>
    mem_elementIds.2 (mem_of_mem_elemsOf he)
  have hs : (elemsOf sets k).toFinset ⊆ (elementIds sets).toFinset :=
    fun e he => List.mem_toFinset.2 (hmemb e (List.mem_toFinset.1 he))
  rw [bitSetOf_eq_image hmemb,
    ← image_inter_of_injOn hs hw (indexOf_injOn_toFinset _), h0,
    Finset.image_empty]

/-! Remaining helpers for the claims about distinguished inputs. -/

theorem greedy1_filter {sets : List (K × List T)}
    (hnd : (keysOf sets).Nodup) :
    greedy_set_cover_1 (sets.filter (fun p => ¬ p.2 = [])) =
      greedy_set_cover_1 sets := by
  rw [greedy1_eq_greedy0 (keysOf_filter_nodup hnd), greedy1_eq_greedy0 hnd,
    greedy0_filter hnd]

theorem entry_elems_subset_universe {sets : List (K × List T)}
    {p : K × List T} (hp : p ∈ sets) :
    p.2.toFinset ⊆ universeOf sets := by
  intro e he
  rw [universeOf, List.mem_toFinset, allElems, List.mem_flatten]
  exact ⟨p.2, List.mem_map.2 ⟨p, hp, rfl⟩, List.mem_toFinset.1 he⟩

theorem greedy0_full_set {sets : List (K × List T)}
    (hnd : (keysOf sets).Nodup) {k0 : K} {es0 : List T}
    (hmem : (k0, es0) ∈ sets) (hu : es0.toFinset = universeOf sets)
    (hne : universeOf sets ≠ ∅) :
    ∃ k, greedy_set_cover_0 sets = some [k] ∧
      (elemsOf sets k).toFinset = universeOf sets ∧
      ((∀ p ∈ sets, p.2.toFinset = universeOf sets → p.1 = k0) → k = k0) := by
  obtain ⟨n, hn⟩ : ∃ n, sets.length = n + 1 := by
    refine ⟨sets.length - 1, ?_⟩
    have : sets ≠ [] := by
      intro h
      rw [h] at hmem
      simp at hmem
    have : sets.length ≠ 0 := fun h => this (List.length_eq_zero.1 h)
    omega
  obtain ⟨k, b, hcb⟩ := chooseBest0_isSome (Finset.Subset.refl _) hne
  have hUcard : (interOf es0 (universeOf sets)).card =
      (universeOf sets).card := by
    rw [interOf_eq, hu, Finset.inter_self]
  have hbU : b = universeOf sets := by
    have h1 : (universeOf sets).card ≤ b.card := by
      have := chooseBest0_le hcb (k0, es0) hmem
      rw [hUcard] at this
      exact this
    exact Finset.eq_of_subset_of_card_le (chooseBest0_best_subset hcb) h1
  have hfil : (universeOf sets).filter (fun e => e ∉ b) = ∅ := by
    rw [filter_not_mem_eq_sdiff, hbU, Finset.sdiff_self]
  have hloop : loop0 sets sets.length (universeOf sets) [] =
      some (∅, [k]) := by
    rw [hn, loop0_succ, if_neg hne, hcb]
    show loop0 sets n ((universeOf sets).filter (fun e => e ∉ b)) [k] =
      some (∅, [k])
    rw [hfil]
    exact loop0_empty sets n [k]
  have hout : greedy_set_cover_0 sets = some [k] := by
    rw [greedy_set_cover_0, hloop]
    simp
  obtain ⟨l₁, es, l₂, hsplit, hb, _, _, _⟩ := chooseBest0_some hcb
  have hkes : (k, es) ∈ sets := by
    rw [hsplit]
    simp
  have helems : elemsOf sets k = es := elemsOf_eq_of_mem hnd hkes
  have hesU : es.toFinset = universeOf sets := by
    have h1 : es.toFinset ∩ universeOf sets = universeOf sets := by
      rw [← interOf_eq, ← hb, hbU]
    refine Finset.Subset.antisymm (entry_elems_subset_universe hkes) ?_
    intro e he
    rw [← h1] at he
    exact (Finset.mem_inter.1 he).1
  exact ⟨k, hout, by rw [helems]; exact hesU,
    fun huniq => huniq (k, es) hkes hesU⟩

theorem greedy0_disjoint_all {sets : List (K × List T)}
    (hnd : (keysOf sets).Nodup)
    (hdisj : List.Pairwise (fun p q => p.2.toFinset ∩ q.2.toFinset = ∅) sets)
    (hne : ∀ p ∈ sets, p.2 ≠ []) :
    ∃ cov, greedy_set_cover_0 sets = some cov ∧ cov.Nodup ∧
      (∀ k ∈ cov, k ∈ keysOf sets) ∧ ∀ p ∈ sets, p.1 ∈ cov := by
  obtain ⟨cov, h1, h2, h3, h4⟩ := greedy0_spec hnd
  refine ⟨cov, h1, h2, fun k hk => neKeys_subset_keys (h3 k hk), ?_⟩
  intro p hp
  obtain ⟨e, he⟩ := List.exists_mem_of_ne_nil _ (hne _ hp)
  have heU : e ∈ universeOf sets :=
    entry_elems_subset_universe hp (List.mem_toFinset.2 he)
  rw [← h4] at heU
  obtain ⟨k', hk', he'⟩ := mem_coverageOf.1 heU
  have hk'keys : k' ∈ keysOf sets := neKeys_subset_keys (h3 k' hk')
  have hmem' : (k', elemsOf sets k') ∈ sets := elemsOf_mem hk'keys
  by_cases heq : p = (k', elemsOf sets k')
  · rw [heq]
    exact hk'
  · have hdis := (hdisj.forall
      (fun q r h => by rwa [Finset.inter_comm])) hp hmem' heq
    have hcontra : e ∈ p.2.toFinset ∩ (elemsOf sets k').toFinset :=
      Finset.mem_inter.2 ⟨List.mem_toFinset.2 he, List.mem_toFinset.2 he'⟩
    rw [hdis] at hcontra
    simp at hcontra

theorem coverageOf_perm {sets : List (K × List T)} {ks ks' : List K}
    (h : ks.Perm ks') : coverageOf sets ks = coverageOf sets ks' := by
  ext e
  rw [mem_coverageOf, mem_coverageOf]
  constructor
  · rintro ⟨k, hk, he⟩
    exact ⟨k, h.mem_iff.1 hk, he⟩
  · rintro ⟨k, hk, he⟩
    exact ⟨k, h.mem_iff.2 hk, he⟩

theorem nodup_subset_length_le {l₁ l₂ : List K} (h1 : l₁.Nodup)
    (h2 : l₂.Nodup) (hsub : ∀ k ∈ l₁, k ∈ l₂) : l₁.length ≤ l₂.length := by
  rw [← List.toFinset_card_of_nodup h1, ← List.toFinset_card_of_nodup h2]
  exact Finset.card_le_card fun x hx =>
    List.mem_toFinset.2 (hsub x (List.mem_toFinset.1 hx))

/-! The claims. -/

/-- C1: for every input collection (an association list with the distinct
keys of a hash map) and for both modes, when the call returns a cover, the
union of the elements of the sets named by the returned cover equals the
union of the elements of all input sets (the Universe). -/
theorem C1_cover_union_eq_universe (sets : List (K × List T))
    (hnd : (keysOf sets).Nodup) :
    (∀ out, returnedCover0 sets out →
      coverageOf sets out = universeOf sets) ∧
    (∀ out, returnedCover1 sets out →
      coverageOf sets out = universeOf sets) := by
  obtain ⟨cov, h1, _, _, h4⟩ := greedy0_spec hnd
  constructor
  · rintro out ⟨sel, hsel, hperm⟩
    rw [h1] at hsel
    obtain rfl : cov = sel := by simpa using hsel
    rw [coverageOf_perm hperm]
    exact h4
  · rintro out ⟨sel, hsel, hperm⟩
    rw [greedy1_eq_greedy0 hnd, h1] at hsel
    obtain rfl : cov = sel := by simpa using hsel
    rw [coverageOf_perm hperm]
    exact h4

/-- C1 witness at a concrete input. -/
theorem C1_witness :
    coverageOf [((0 : Nat), [(0 : Nat), 1]), (1, [1, 2])] [0, 1] =
      universeOf [((0 : Nat), [(0 : Nat), 1]), (1, [1, 2])] :=
  (C1_cover_union_eq_universe [((0 : Nat), [(0 : Nat), 1]), (1, [1, 2])]
    (by decide)).1 [0, 1] ⟨[0, 1], by decide, by decide⟩

/-- C2: in every round of the greedy loop (i.e. at the uncovered set of any
round), for both selectors, the chosen set attains the maximum intersection
size among the candidates, and the first candidate in iteration order to
attain it wins, the comparison being strictly-greater-than; for the bitset
selector the candidates are the not-yet-chosen sets. -/
theorem C2_choice_is_first_max (sets : List (K × List T)) :
    (∀ (unc : Finset T) (k : K) (b : Finset T),
      chooseBest0 sets unc = (some k, b) →
      ∃ l₁ es l₂, sets = l₁ ++ (k, es) :: l₂ ∧ b = interOf es unc ∧
        (∀ q ∈ sets, (interOf q.2 unc).card ≤ b.card) ∧
        (∀ q ∈ l₁, (interOf q.2 unc).card < b.card)) ∧
    (∀ (bsets : List (K × Finset Nat)) (cov : List K) (unc : Finset Nat)
        (k : K) (c : Nat) (bi : Option (Finset Nat)),
      chooseBest1 bsets cov unc = (some k, c, bi) →
      ∃ l₁ bs l₂, bsets = l₁ ++ (k, bs) :: l₂ ∧ k ∉ cov ∧
        c = (bs ∩ unc).card ∧
        (∀ q ∈ bsets, q.1 ∉ cov → (q.2 ∩ unc).card ≤ c) ∧
        (∀ q ∈ l₁, q.1 ∉ cov → (q.2 ∩ unc).card < c)) := by
  constructor
  · intro unc k b h
    obtain ⟨l₁, es, l₂, hsplit, hb, _, hl₁, hl₂⟩ := chooseBest0_some h
    exact ⟨l₁, es, l₂, hsplit, hb, chooseBest0_le h, hl₁⟩
  · intro bsets cov unc k c bi h
    obtain ⟨l₁, bs, l₂, hsplit, hkc, hc, _, _, hl₁, hl₂⟩ := chooseBest1_some h
    refine ⟨l₁, bs, l₂, hsplit, hkc, hc, ?_, hl₁⟩
    intro q hq hqc
    rw [hsplit] at hq
    rcases List.mem_append.1 hq with hq | hq
    · exact le_of_lt (hl₁ q hq hqc)
    · rcases List.mem_cons.1 hq with rfl | hq
      · rw [hc]
      · exact hl₂ q hq hqc

/-- C2 witness at a concrete input and round state. -/
theorem C2_witness :
    ∃ l₁ es l₂,
      [((0 : Nat), [(0 : Nat), 1]), (1, [1, 2])] =
        l₁ ++ ((0 : Nat), es) :: l₂ ∧
      ({0, 1} : Finset Nat) = interOf es ({0, 1, 2} : Finset Nat) ∧
      (∀ q ∈ [((0 : Nat), [(0 : Nat), 1]), (1, [1, 2])],
        (interOf q.2 ({0, 1, 2} : Finset Nat)).card ≤
          ({0, 1} : Finset Nat).card) ∧
      (∀ q ∈ l₁,
        (interOf q.2 ({0, 1, 2} : Finset Nat)).card <
          ({0, 1} : Finset Nat).card) :=
  (C2_choice_is_first_max [((0 : Nat), [(0 : Nat), 1]), (1, [1, 2])]).1
    {0, 1, 2} 0 {0, 1} (by decide)

/-- C3: when both greedy loops enumerate candidates in the same fixed order
in every round (the order of the association list), the naive selector and
the bitset selector select exactly the same sets in the same rounds; in
particular the two modes produce covers with identical coverage. -/
theorem C3_bitset_equals_naive (sets : List (K × List T))
    (hnd : (keysOf sets).Nodup) :
    greedy_set_cover_1 sets = greedy_set_cover_0 sets ∧
    (∀ out0 out1, greedy_set_cover_0 sets = some out0 →
      greedy_set_cover_1 sets = some out1 →
      coverageOf sets out1 = coverageOf sets out0) := by
  refine ⟨greedy1_eq_greedy0 hnd, ?_⟩
  intro out0 out1 h0 h1
  rw [greedy1_eq_greedy0 hnd, h0] at h1
  obtain rfl : out0 = out1 := by simpa using h1
  rfl

/-- C3 witness at a concrete input. -/
theorem C3_witness :
    greedy_set_cover_1 [((0 : Nat), [(0 : Nat), 1]), (1, [1, 2])] =
      greedy_set_cover_0 [((0 : Nat), [(0 : Nat), 1]), (1, [1, 2])] :=
  (C3_bitset_equals_naive [((0 : Nat), [(0 : Nat), 1]), (1, [1, 2])]
    (by decide)).1

/-- C4: with the uncovered set initialised to exactly the union of the input
sets, the UncoverableInput failure branches (the in-loop check and the
post-loop check) are unreachable: neither selector ever panics, for any
input; in the model, neither selector ever returns `none`. -/
theorem C4_no_panic (sets : List (K × List T))
    (hnd : (keysOf sets).Nodup) :
    (greedy_set_cover_0 sets).isSome ∧ (greedy_set_cover_1 sets).isSome := by
  obtain ⟨cov, h1, _, _, _⟩ := greedy0_spec hnd
  constructor
  · rw [h1]
    rfl
  · rw [greedy1_eq_greedy0 hnd, h1]
    rfl

/-- C4 witness at a concrete input. -/
theorem C4_witness :
    (greedy_set_cover_0 [((0 : Nat), [(0 : Nat), 1]), (1, [1, 2])]).isSome ∧
    (greedy_set_cover_1 [((0 : Nat), [(0 : Nat), 1]), (1, [1, 2])]).isSome :=
  C4_no_panic [((0 : Nat), [(0 : Nat), 1]), (1, [1, 2])] (by decide)

/-- C5 counterexample: on the input with sets 0 ↦ [0] and 1 ↦ [1] the
selection order is [0, 1], but [1, 0] is also a possible returned vector,
because the cover HashSet is enumerated by into_iter in unspecified order;
so the returned cover is not always listed in selection order. -/
theorem C5_counterexample :
    returnedCover0 [((0 : Nat), [(0 : Nat)]), (1, [1])] [1, 0] ∧
    greedy_set_cover_0 [((0 : Nat), [(0 : Nat)]), (1, [1])] ≠
      some [1, 0] := by
  constructor
  · exact ⟨[0, 1], by decide, by decide⟩
  · decide

/-- C5 (amended): the returned cover of either selector enumerates the
selected keys in an unspecified order; each member is a key of the input
mapping, no member repeats, and the length is at most the number of input
sets. -/
theorem C5_cover_wellformed (sets : List (K × List T))
    (hnd : (keysOf sets).Nodup) :
    (∀ out, returnedCover0 sets out →
      out.Nodup ∧ (∀ k ∈ out, k ∈ keysOf sets) ∧
        out.length ≤ sets.length) ∧
    (∀ out, returnedCover1 sets out →
      out.Nodup ∧ (∀ k ∈ out, k ∈ keysOf sets) ∧
        out.length ≤ sets.length) := by
  obtain ⟨cov, h1, h2, h3, _⟩ := greedy0_spec hnd
  have hmain : ∀ out : List K, out.Perm cov →
      out.Nodup ∧ (∀ k ∈ out, k ∈ keysOf sets) ∧
        out.length ≤ sets.length := by
    intro out hperm
    have hnodup : out.Nodup := hperm.nodup_iff.2 h2
    have hkeys : ∀ k ∈ out, k ∈ keysOf sets := fun k hk =>
      neKeys_subset_keys (h3 k (hperm.mem_iff.1 hk))
    refine ⟨hnodup, hkeys, ?_⟩
    have hlen : (keysOf sets).length = sets.length := List.length_map _ _
    rw [← hlen]
    exact nodup_subset_length_le hnodup hnd hkeys
  constructor
  · rintro out ⟨sel, hsel, hperm⟩
    rw [h1] at hsel
    obtain rfl : cov = sel := by simpa using hsel
    exact hmain out hperm
  · rintro out ⟨sel, hsel, hperm⟩
    rw [greedy1_eq_greedy0 hnd, h1] at hsel
    obtain rfl : cov = sel := by simpa using hsel
    exact hmain out hperm

/-- C5 witness at a concrete input. -/
theorem C5_witness :
    [(1 : Nat), 0].Nodup ∧
    (∀ k ∈ [(1 : Nat), 0], k ∈ keysOf [((0 : Nat), [(0 : Nat)]), (1, [1])]) ∧
    [(1 : Nat), 0].length ≤ [((0 : Nat), [(0 : Nat)]), (1, [1])].length :=
  (C5_cover_wellformed [((0 : Nat), [(0 : Nat)]), (1, [1])] (by decide)).1
    [1, 0] ⟨[0, 1], by decide, by decide⟩

/-- C6: the dispatcher recognises exactly the two mode values 0 (naive) and
1 (bitset), returning exactly the corresponding selector result; every other
mode value yields the configuration error, doing no work on the sets. -/
theorem C6_dispatcher_modes (sets : List (K × List T)) (algo : Int) :
    (algo = 0 → ∀ c, (greedy_set_cover sets algo = Except.ok c ↔
      greedy_set_cover_0 sets = some c)) ∧
    (algo = 1 → ∀ c, (greedy_set_cover sets algo = Except.ok c ↔
      greedy_set_cover_1 sets = some c)) ∧
    (algo ≠ 0 → algo ≠ 1 →
      greedy_set_cover sets algo = Except.error CoverError.wrongAlgo) := by
  refine ⟨?_, ?_, ?_⟩
  · rintro rfl c
    rw [greedy_set_cover, if_pos rfl]
    rcases greedy_set_cover_0 sets with _ | c'
    · simp
    · simp
  · rintro rfl c
    rw [greedy_set_cover, if_neg (by decide), if_pos rfl]
    rcases greedy_set_cover_1 sets with _ | c'
    · simp
    · simp
  · intro h0 h1
    rw [greedy_set_cover, if_neg h0, if_neg h1]

/-- C6 witness at a concrete input and an unrecognised mode. -/
theorem C6_witness :
    greedy_set_cover [((0 : Nat), [(0 : Nat)])] 7 =
      Except.error CoverError.wrongAlgo :=
  (C6_dispatcher_modes [((0 : Nat), [(0 : Nat)])] 7).2.2 (by decide)
    (by decide)

/-- C7 counterexample: on the input with the single set 1 ↦ [], the element
sequence of that set contains exactly the elements of the (empty) Universe,
yet both selectors return the empty cover rather than a one-member cover. -/
theorem C7_counterexample :
    ((1 : Nat), ([] : List Nat)) ∈ [((1 : Nat), ([] : List Nat))] ∧
    ([] : List Nat).toFinset = universeOf [((1 : Nat), ([] : List Nat))] ∧
    greedy_set_cover_0 [((1 : Nat), ([] : List Nat))] = some [] ∧
    greedy_set_cover_1 [((1 : Nat), ([] : List Nat))] = some [] ∧
    ([] : List Nat).length ≠ 1 := by
  decide

/-- C7 (amended): when the elements of some input set are exactly the
elements of the full Universe and the Universe is non-empty, either selector returns a
one-member cover whose member names a set whose elements equal the Universe;
when the hypothesised set is the only such set, that member is its key. -/
theorem C7_full_set_singleton (sets : List (K × List T))
    (hnd : (keysOf sets).Nodup) (k0 : K) (es0 : List T)
    (hmem : (k0, es0) ∈ sets) (hu : es0.toFinset = universeOf sets)
    (hne : universeOf sets ≠ ∅) :
    ∃ k, greedy_set_cover_0 sets = some [k] ∧
      greedy_set_cover_1 sets = some [k] ∧
      (elemsOf sets k).toFinset = universeOf sets ∧
      ((∀ p ∈ sets, p.2.toFinset = universeOf sets → p.1 = k0) → k = k0) := by
  obtain ⟨k, h1, h2, h3⟩ := greedy0_full_set hnd hmem hu hne
  exact ⟨k, h1, by rw [greedy1_eq_greedy0 hnd]; exact h1, h2, h3⟩

/-- C7 witness at a concrete input. -/
theorem C7_witness :
    ∃ k, greedy_set_cover_0 [((5 : Nat), [(3 : Nat), 4]), (6, [3])] =
        some [k] ∧
      greedy_set_cover_1 [((5 : Nat), [(3 : Nat), 4]), (6, [3])] =
        some [k] ∧
      (elemsOf [((5 : Nat), [(3 : Nat), 4]), (6, [3])] k).toFinset =
        universeOf [((5 : Nat), [(3 : Nat), 4]), (6, [3])] ∧
      ((∀ p ∈ [((5 : Nat), [(3 : Nat), 4]), (6, [3])],
          p.2.toFinset = universeOf [((5 : Nat), [(3 : Nat), 4]), (6, [3])] →
          p.1 = 5) → k = 5) :=
  C7_full_set_singleton [((5 : Nat), [(3 : Nat), 4]), (6, [3])] (by decide)
    5 [3, 4] (by decide) (by decide) (by decide)

/-- C8 counterexample: the sets 1 ↦ [1] and 2 ↦ [] are pairwise disjoint
(no element occurs in two different sets), yet both selectors return the
cover [1], which does not contain the key 2: with an empty set present the
cover is not the full collection. -/
theorem C8_counterexample :
    List.Pairwise (fun p q => p.2.toFinset ∩ q.2.toFinset = (∅ : Finset Nat))
      [((1 : Nat), [(1 : Nat)]), (2, [])] ∧
    greedy_set_cover_0 [((1 : Nat), [(1 : Nat)]), (2, [])] = some [1] ∧
    greedy_set_cover_1 [((1 : Nat), [(1 : Nat)]), (2, [])] = some [1] ∧
    ¬((2 : Nat) ∈ [(1 : Nat)]) := by
  decide

/-- C8 (amended): when the input sets are pairwise disjoint and none is
empty, the cover returned by either selector is the full input collection:
every input key appears in it, and it holds nothing else. -/
theorem C8_disjoint_full_collection (sets : List (K × List T))
    (hnd : (keysOf sets).Nodup)
    (hdisj : List.Pairwise (fun p q => p.2.toFinset ∩ q.2.toFinset = ∅) sets)
    (hne : ∀ p ∈ sets, p.2 ≠ []) :
    ∃ cov, greedy_set_cover_0 sets = some cov ∧
      greedy_set_cover_1 sets = some cov ∧ cov.Nodup ∧
      (∀ k ∈ cov, k ∈ keysOf sets) ∧ ∀ p ∈ sets, p.1 ∈ cov := by
  obtain ⟨cov, h1, h2, h3, h4⟩ := greedy0_disjoint_all hnd hdisj hne
  exact ⟨cov, h1, by rw [greedy1_eq_greedy0 hnd]; exact h1, h2, h3, h4⟩

/-- C8 witness at a concrete input. -/
theorem C8_witness :
    ∃ cov, greedy_set_cover_0 [((0 : Nat), [(0 : Nat)]), (1, [1])] =
        some cov ∧
      greedy_set_cover_1 [((0 : Nat), [(0 : Nat)]), (1, [1])] = some cov ∧
      cov.Nodup ∧
      (∀ k ∈ cov, k ∈ keysOf [((0 : Nat), [(0 : Nat)]), (1, [1])]) ∧
      ∀ p ∈ [((0 : Nat), [(0 : Nat)]), (1, [1])], p.1 ∈ cov :=
  C8_disjoint_full_collection [((0 : Nat), [(0 : Nat)]), (1, [1])]
    (by decide) (by decide) (by decide)

/-- C9: a set whose element sequence is empty is never selected into the
cover (a round winner always has a strictly positive intersection count,
hence a non-empty element list), and removing all empty sets from the input
changes the result of neither selector, hence neither the achieved coverage nor
the pool of candidates that can win a round. -/
theorem C9_empty_sets_never_matter (sets : List (K × List T))
    (hnd : (keysOf sets).Nodup) :
    (∀ out, greedy_set_cover_0 sets = some out →
      ∀ k ∈ out, elemsOf sets k ≠ []) ∧
    (∀ out, greedy_set_cover_1 sets = some out →
      ∀ k ∈ out, elemsOf sets k ≠ []) ∧
    (∀ (unc : Finset T) (k : K) (b : Finset T),
      chooseBest0 sets unc = (some k, b) → elemsOf sets k ≠ []) ∧
    greedy_set_cover_0 (sets.filter (fun p => ¬ p.2 = [])) =
      greedy_set_cover_0 sets ∧
    greedy_set_cover_1 (sets.filter (fun p => ¬ p.2 = [])) =
      greedy_set_cover_1 sets := by
  obtain ⟨cov, h1, _, h3, _⟩ := greedy0_spec hnd
  refine ⟨?_, ?_, ?_, greedy0_filter hnd, greedy1_filter hnd⟩
  · intro out hout
    rw [h1] at hout
    obtain rfl : cov = out := by simpa using hout
    exact fun k hk => neKeys_elemsOf_ne_nil hnd (h3 k hk)
  · intro out hout
    rw [greedy1_eq_greedy0 hnd, h1] at hout
    obtain rfl : cov = out := by simpa using hout
    exact fun k hk => neKeys_elemsOf_ne_nil hnd (h3 k hk)
  · intro unc k b hcb
    obtain ⟨l₁, es, l₂, hsplit, hb, hpos, _, _⟩ := chooseBest0_some hcb
    have hkes : (k, es) ∈ sets := by
      rw [hsplit]
      simp
    rw [elemsOf_eq_of_mem hnd hkes]
    intro hnil
    rw [hnil] at hb
    rw [hb] at hpos
    simp [interOf] at hpos

/-- C9 witness at a concrete input containing an empty set. -/
theorem C9_witness :
    greedy_set_cover_0
        (List.filter (fun p => ¬ p.2 = [])
          [((0 : Nat), [(0 : Nat)]), (1, [])]) =
      greedy_set_cover_0 [((0 : Nat), [(0 : Nat)]), (1, [])] :=
  (C9_empty_sets_never_matter [((0 : Nat), [(0 : Nat)]), (1, [])]
    (by decide)).2.2.2.1

/-- C10: at the start of every reachable round of either selector, every
element of every set already in the cover is covered, so an already-chosen
set has empty intersection with the uncovered set and is never selected a
second time, even though the naive scan re-examines chosen sets. -/
theorem C10_chosen_sets_stay_covered (sets : List (K × List T))
    (hnd : (keysOf sets).Nodup) :
    (∀ (unc : Finset T) (cov : List K), Reach0 sets unc cov →
      (∀ k ∈ cov, (elemsOf sets k).toFinset ∩ unc = ∅) ∧
      (∀ (k : K) (b : Finset T), chooseBest0 sets unc = (some k, b) →
        k ∉ cov)) ∧
    (∀ (unc1 : Finset Nat) (cov : List K), Reach1 sets unc1 cov →
      (∀ k ∈ cov, bitSetOf (elementIds sets) (elemsOf sets k) ∩ unc1 = ∅) ∧
      (∀ (k : K) (c : Nat) (bi : Option (Finset Nat)),
        chooseBest1 (bitSetsOf sets) cov unc1 = (some k, c, bi) →
        k ∉ cov)) := by
  constructor
  · intro unc cov h
    exact ⟨reach0_cov_covered hnd h,
      fun k b hcb => reach0_no_reselect hnd h hcb⟩
  · intro unc1 cov h
    exact ⟨reach1_cov_covered hnd h,
      fun k c bi hcb => chooseBest1_not_mem hcb⟩

/-- C10 witness at a concrete reachable round state. -/
theorem C10_witness :
    (elemsOf [((0 : Nat), [(0 : Nat)]), (1, [1])] 0).toFinset ∩
      ({1} : Finset Nat) = ∅ := by
  have hreach :
      Reach0 [((0 : Nat), [(0 : Nat)]), (1, [1])] ({1} : Finset Nat) [0] := by
    have h : Reach0 [((0 : Nat), [(0 : Nat)]), (1, [1])]
        ((universeOf [((0 : Nat), [(0 : Nat)]), (1, [1])]).filter
          (fun e => e ∉ ({0} : Finset Nat))) ([] ++ [0]) :=
      Reach0.step _ _ _ _ Reach0.init (by decide) (by decide)
    have heq : (universeOf [((0 : Nat), [(0 : Nat)]), (1, [1])]).filter
        (fun e => e ∉ ({0} : Finset Nat)) = ({1} : Finset Nat) := by decide
    rwa [heq] at h
  exact ((C10_chosen_sets_stay_covered [((0 : Nat), [(0 : Nat)]), (1, [1])]
    (by decide)).1 {1} [0] hreach).1 0 (by decide)

end SetCover
